import Mathlib

/-!
Verification development for the `perds` crate (src/lib.rs): a persistent
key-value store backed by an append-only log of postcard-encoded records.

Modelling conventions:
* Keys and values are byte strings (`List Nat`, each element a byte), the
  instantiation used by the crate's own tests (`&str` / `String`).
* The postcard codec for this instantiation is: an enum discriminant is a
  LEB128 varint (`Insert ↦ 0`, `Delete ↦ 1`); a byte string is a varint
  length prefix followed by its bytes; a tuple serializes its fields in
  order with no framing.
* The `HashMap` is modelled as an association list with unique keys:
  `mapInsert` replaces in place, `mapRemove` drops every pair with the key,
  `mapGet` scans from the front; these agree with `HashMap` semantics on
  unique-key lists.
* File-system state is explicit: a `Store` carries the on-disk bytes, the
  `BufWriter` buffer (capacity 8192 as in `std`), and the open mode of the
  handle (`from_file` uses `File::open`, i.e. read-only; `try_from_file`
  and `new` obtain writable handles).  A write on a read-only handle fails
  with a file error, mirroring `EBADF`; OS writes are all-or-nothing.
* Fallible operations return `Except Error` mirroring `Result<_, Error>`.
* Recursions on the byte buffer (`replay`, varint encoding) use explicit
  fuel so that the definitions compute by kernel reduction; fuel equal to
  the buffer length is always sufficient because each decoded record
  consumes at least one byte, and fuel-irrelevance is proved below.
-/

namespace Perds

/-- A byte string: the model of `&str` / `Vec<u8>` keys and values. -/
abbrev Bytes := List Nat

/-- The persistence strategy of `Perds` (src/lib.rs, `enum Strategy`). -/
inductive Strategy where
  | Stream
  | Manual
deriving DecidableEq

/-- The log record tag (src/lib.rs, `enum Operation`). -/
inductive Operation where
  | Insert
  | Delete
deriving DecidableEq

/-- Crate error type (src/lib.rs, `enum Error`): a file-system failure or a
postcard (de)serialization failure. -/
inductive Error where
  | FileError
  | SerError
deriving DecidableEq

/-- The open mode of the store's file handle: `from_file` uses `File::open`
(read-only), while `new` and `try_from_file` open for writing. -/
inductive FileMode where
  | readOnly
  | readWrite
deriving DecidableEq

/-! ### Record codec (postcard, byte-string instantiation) -/

/-- Fueled worker for LEB128 varint encoding: low 7 bits first, high bit of
a byte marks continuation.  Fuel `n + 1` always suffices. -/
def encodeVarintGo : Nat → Nat → Bytes
  | 0, _ => []
  | fuel + 1, n => if n < 128 then [n] else (n % 128 + 128) :: encodeVarintGo fuel (n / 128)

/-- LEB128 varint encoding of a natural number, as postcard encodes `usize`
lengths and `u32` enum discriminants. -/
def encodeVarint (n : Nat) : Bytes := encodeVarintGo (n + 1) n

/-- Postcard encoding of a byte string: varint length prefix, then bytes. -/
def encodeBytes (s : Bytes) : Bytes := encodeVarint s.length ++ s

/-- Postcard encoding of an `Operation` discriminant. -/
def encodeOp : Operation → Bytes
  | .Insert => [0]
  | .Delete => [1]

/-- LEB128 varint decoding worker: `shift` is the bit position of the next
group, `acc` the value decoded so far. -/
def decodeVarintAux : Bytes → Nat → Nat → Option (Nat × Bytes)
  | [], _, _ => none
  | b :: rest, shift, acc =>
    if b < 128 then some (acc + b * 2 ^ shift, rest)
    else decodeVarintAux rest (shift + 7) (acc + (b - 128) * 2 ^ shift)

/-- Decode a varint from the front of a buffer, returning the value and the
unconsumed remainder (the model of `postcard::take_from_bytes` for
integers). -/
def decodeVarint (buf : Bytes) : Option (Nat × Bytes) :=
  decodeVarintAux buf 0 0

/-- Decode a byte string: varint length, then that many payload bytes; fails
if the buffer holds fewer bytes than announced. -/
def decodeBytes (buf : Bytes) : Option (Bytes × Bytes) :=
  match decodeVarint buf with
  | none => none
  | some (len, rest) =>
    if len ≤ rest.length then some (rest.take len, rest.drop len) else none

/-- Decode an `Operation` discriminant: `0 ↦ Insert`, `1 ↦ Delete`, anything
else is an unknown-variant decode error. -/
def decodeOp (buf : Bytes) : Option (Operation × Bytes) :=
  match decodeVarint buf with
  | none => none
  | some (0, rest) => some (.Insert, rest)
  | some (1, rest) => some (.Delete, rest)
  | some _ => none

/-- One logical log record: an insert carrying a value, or a delete. -/
inductive Rec where
  | insert (k v : Bytes)
  | delete (k : Bytes)
deriving DecidableEq

/-- Encoding of one record, as `postcard::to_stdvec` serializes the tuples
`(Operation::Insert, &k, &v)` and `(Operation::Delete, &k)`. -/
def encodeRec : Rec → Bytes
  | .insert k v => encodeOp .Insert ++ encodeBytes k ++ encodeBytes v
  | .delete k => encodeOp .Delete ++ encodeBytes k

/-- Encoding of a whole log: the concatenation of its records' bytes. -/
def encodeLog (rs : List Rec) : Bytes := (rs.map encodeRec).flatten

/-- Decode one complete record from the front of a buffer: the loop body of
the replay loops in `from_file` / `try_from_file` (src/lib.rs:112-125). -/
def decodeRecord (buf : Bytes) : Option (Rec × Bytes) :=
  match decodeOp buf with
  | none => none
  | some (op, buf1) =>
    match decodeBytes buf1 with
    | none => none
    | some (k, buf2) =>
      match op with
      | .Delete => some (.delete k, buf2)
      | .Insert =>
        match decodeBytes buf2 with
        | none => none
        | some (v, buf3) => some (.insert k v, buf3)

/-! ### The in-memory container -/

/-- The in-memory container: an association list modelling `HashMap<K, V>`
restricted to unique keys. -/
abbrev Map := List (Bytes × Bytes)

/-- Lookup, as `HashMap::get`. -/
def mapGet (k : Bytes) : Map → Option Bytes
  | [] => none
  | (k', v) :: m => if k' = k then some v else mapGet k m

/-- Insert-or-replace, as `HashMap::insert` (the old value is read off with
`mapGet` before the update). -/
def mapInsert (k v : Bytes) : Map → Map
  | [] => [(k, v)]
  | (k', v') :: m => if k' = k then (k, v) :: m else (k', v') :: mapInsert k v m

/-- Removal, as `HashMap::remove`: every pair with the key is dropped (on a
unique-key list, the one pair). -/
def mapRemove (k : Bytes) (m : Map) : Map :=
  m.filter (fun p => p.1 ≠ k)

/-- Apply one record to the container, exactly as the replay loop does:
`Insert` sets or overwrites, `Delete` removes (a no-op on an absent key). -/
def applyRec (m : Map) : Rec → Map
  | .insert k v => mapInsert k v m
  | .delete k => mapRemove k m

/-! ### Replay engine -/

/-- Fueled replay loop of `Perds::from_file` (src/lib.rs:112-125): while the
buffer is non-empty, decode an `Operation`, a key, and for `Insert` a value,
and apply the record to the map.  Any decode failure aborts the whole
replay.  Fuel equal to the buffer length suffices (each record consumes at
least its tag byte); the fuel-exhaustion branch is unreachable then. -/
def replayFuel : Nat → Bytes → Map → Option Map
  | _, [], m => some m
  | 0, _ :: _, _ => none
  | fuel + 1, buf, m =>
    match decodeOp buf with
    | none => none
    | some (op, buf1) =>
      match decodeBytes buf1 with
      | none => none
      | some (k, buf2) =>
        match op with
        | .Delete => replayFuel fuel buf2 (mapRemove k m)
        | .Insert =>
          match decodeBytes buf2 with
          | none => none
          | some (v, buf3) => replayFuel fuel buf3 (mapInsert k v m)

/-- The replay loop of `Perds::from_file`, at its sufficient fuel. -/
def replay (buf : Bytes) (m : Map) : Option Map := replayFuel buf.length buf m

/-- Fueled replay loop of `Perds::try_from_file` (src/lib.rs:160-173) — the
source duplicates the loop verbatim, so this is a second copy, kept separate
so that the agreement of the two hydration paths is a theorem rather than a
modelling decision. -/
def replayTryFuel : Nat → Bytes → Map → Option Map
  | _, [], m => some m
  | 0, _ :: _, _ => none
  | fuel + 1, buf, m =>
    match decodeOp buf with
    | none => none
    | some (op, buf1) =>
      match decodeBytes buf1 with
      | none => none
      | some (k, buf2) =>
        match op with
        | .Delete => replayTryFuel fuel buf2 (mapRemove k m)
        | .Insert =>
          match decodeBytes buf2 with
          | none => none
          | some (v, buf3) => replayTryFuel fuel buf3 (mapInsert k v m)

/-- The replay loop of `Perds::try_from_file`, at its sufficient fuel. -/
def replayTry (buf : Bytes) (m : Map) : Option Map := replayTryFuel buf.length buf m

/-! ### The store, its writer and the file -/

/-- The state of a `Perds<K, V>` together with its file: `inner` is the
in-memory `HashMap`, `writerBuf` the `BufWriter` buffer, `file` the on-disk
bytes, and `mode` the open mode of the owned handle. -/
structure Store where
  strategy : Strategy
  inner : Map
  writerBuf : Bytes
  file : Bytes
  mode : FileMode
deriving DecidableEq

/-- The `BufWriter` capacity used by `std` (8 KiB). -/
def cap : Nat := 8192

/-- One OS-level write of `data` at the end of `file`: all-or-nothing, and a
non-empty write on a read-only handle fails (`EBADF`).  An empty write
performs no syscall and succeeds on any handle. -/
def osWrite (mode : FileMode) (file data : Bytes) : Except Error Bytes :=
  if data = [] then .ok file
  else
    match mode with
    | .readOnly => .error .FileError
    | .readWrite => .ok (file ++ data)

/-- `BufWriter::write_all`: if the pending buffer plus the new data exceed
the capacity, the buffer is flushed first; data at least as large as the
capacity is then written straight through, smaller data is buffered.
Returns the new `(file, buffer)` pair. -/
def bufWriteAll (mode : FileMode) (file buf data : Bytes) :
    Except Error (Bytes × Bytes) :=
  if buf.length + data.length > cap then
    match osWrite mode file buf with
    | .error e => .error e
    | .ok file1 =>
      if data.length ≥ cap then
        match osWrite mode file1 data with
        | .error e => .error e
        | .ok file2 => .ok (file2, [])
      else .ok (file1, data)
  else .ok (file, buf ++ data)

/-- `Perds::insert` (src/lib.rs:233-241): serialize
`(Operation::Insert, &k, &v)`, `write_all` it, flush when the strategy is
`Stream`, and only then update the in-memory map, returning the previous
value.  On an error the updated writer state is kept but the map is not
touched. -/
def Store.insert (p : Store) (k v : Bytes) : Store × Except Error (Option Bytes) :=
  let cmd := encodeRec (.insert k v)
  match bufWriteAll p.mode p.file p.writerBuf cmd with
  | .error e => (p, .error e)
  | .ok (file1, buf1) =>
    match p.strategy with
    | .Stream =>
      match osWrite p.mode file1 buf1 with
      | .error e => ({ p with file := file1, writerBuf := buf1 }, .error e)
      | .ok file2 =>
        ({ p with inner := mapInsert k v p.inner, file := file2, writerBuf := [] },
         .ok (mapGet k p.inner))
    | .Manual =>
      ({ p with inner := mapInsert k v p.inner, file := file1, writerBuf := buf1 },
       .ok (mapGet k p.inner))

/-- `Perds::remove` (src/lib.rs:246-253): serialize
`(Operation::Delete, &k)`, `write_all` it, flush when the strategy is
`Stream`, and only then remove the key, returning the removed value. -/
def Store.remove (p : Store) (k : Bytes) : Store × Except Error (Option Bytes) :=
  let cmd := encodeRec (.delete k)
  match bufWriteAll p.mode p.file p.writerBuf cmd with
  | .error e => (p, .error e)
  | .ok (file1, buf1) =>
    match p.strategy with
    | .Stream =>
      match osWrite p.mode file1 buf1 with
      | .error e => ({ p with file := file1, writerBuf := buf1 }, .error e)
      | .ok file2 =>
        ({ p with inner := mapRemove k p.inner, file := file2, writerBuf := [] },
         .ok (mapGet k p.inner))
    | .Manual =>
      ({ p with inner := mapRemove k p.inner, file := file1, writerBuf := buf1 },
       .ok (mapGet k p.inner))

/-- `Perds::get` (src/lib.rs:226-228): a pure in-memory lookup. -/
def Store.get (p : Store) (k : Bytes) : Option Bytes := mapGet k p.inner

/-- `Perds::flush` (src/lib.rs:259-261): force the `BufWriter` buffer out to
the file. -/
def Store.flush (p : Store) : Store × Except Error Unit :=
  match osWrite p.mode p.file p.writerBuf with
  | .error e => (p, .error e)
  | .ok file1 => ({ p with file := file1, writerBuf := [] }, .ok ())

/-- `Perds::new` (src/lib.rs:193-221): create or truncate the file (so the
on-disk bytes start empty), and when the seed map is non-empty serialize one
`Insert` record per entry in iteration order, `write_all` the batch and
flush it.  The in-memory map is the seed itself and the handle is writable. -/
def newStore (value : Map) (strategy : Strategy) : Except Error Store :=
  if value = [] then .ok ⟨strategy, value, [], [], .readWrite⟩
  else
    let cmds := (value.map (fun kv => encodeRec (.insert kv.1 kv.2))).flatten
    match bufWriteAll .readWrite [] [] cmds with
    | .error e => .error e
    | .ok (file1, buf1) =>
      match osWrite .readWrite file1 buf1 with
      | .error e => .error e
      | .ok file2 => .ok ⟨strategy, value, [], file2, .readWrite⟩

/-- `Perds::from_file` (src/lib.rs:106-132): open read-only (`File::open`),
read the whole file, replay it into an empty map, and keep the same
(read-only) handle, now at end-of-file, behind a fresh `BufWriter`. -/
def fromFile (strategy : Strategy) (contents : Bytes) : Except Error Store :=
  match replay contents [] with
  | none => .error .SerError
  | some m => .ok ⟨strategy, m, [], contents, .readOnly⟩

/-- `Perds::try_from_file` (src/lib.rs:153-180): identical to `from_file`
except that the file is opened with read and write access. -/
def tryFromFile (strategy : Strategy) (contents : Bytes) : Except Error Store :=
  match replayTry contents [] with
  | none => .error .SerError
  | some m => .ok ⟨strategy, m, [], contents, .readWrite⟩

/-- A call in a client session: the argument of one `insert` or `remove`.
Identified with the record the call appends, since they carry the same
data. -/
abbrev Call := Rec

/-- Run a sequence of `insert` / `remove` calls left to right, stopping at
the first error (a caller propagating each `Result` with `?`). -/
def runOps (p : Store) : List Call → Store × Except Error Unit
  | [] => (p, .ok ())
  | .insert k v :: rest =>
    match Store.insert p k v with
    | (p1, .ok _) => runOps p1 rest
    | (p1, .error e) => (p1, .error e)
  | .delete k :: rest =>
    match Store.remove p k with
    | (p1, .ok _) => runOps p1 rest
    | (p1, .error e) => (p1, .error e)

/-- The effect of a log on one key, read off the records alone: `none` when
no record mentions the key, `some none` when the last record for the key is
a delete, `some (some v)` when the last record for the key is an insert of
`v`.  A later record overrides an earlier one. -/
def lastAction (k : Bytes) : List Rec → Option (Option Bytes)
  | [] => none
  | r :: rest =>
    match lastAction k rest with
    | some a => some a
    | none =>
      match r with
      | .insert k' v => if k' = k then some (some v) else none
      | .delete k' => if k' = k then some none else none

/-- The value carried by the last `Insert` record for a key that has no
subsequent `Delete` record for that key, or `none` when there is no such
record — the spec's reading of a log. -/
def lastInsertValue (k : Bytes) (rs : List Rec) : Option Bytes :=
  match lastAction k rs with
  | some a => a
  | none => none

/-- The `Insert` records written by `Perds::new` for a seed container, in
iteration order. -/
def seedRecords (seed : Map) : List Rec :=
  seed.map (fun kv => .insert kv.1 kv.2)

/-- The store obtained from `from_file` on an empty log under `Stream`: an
empty map behind a read-only handle. -/
def stoRO : Store := ⟨.Stream, [], [], [], .readOnly⟩

/-- A fresh writable `Stream` store over an empty log (`new` with an empty
seed, or `try_from_file` on an empty file). -/
def scA0 : Store := ⟨.Stream, [], [], [], .readWrite⟩

/-- Scenario A, after `insert("abc", "fed")`. -/
def scA1 : Store := (Store.insert scA0 [97, 98, 99] [102, 101, 100]).1

/-- Scenario A, after `insert("abc", "def")`. -/
def scA2 : Store := (Store.insert scA1 [97, 98, 99] [100, 101, 102]).1

/-- Scenario A, after `remove("abc")`. -/
def scA3 : Store := (Store.remove scA2 [97, 98, 99]).1

/-- Scenario A, after `insert("hello", "world")`. -/
def scA4 : Store :=
  (Store.insert scA3 [104, 101, 108, 108, 111] [119, 111, 114, 108, 100]).1

/-- A fresh writable store under the `Manual` strategy. -/
def manualStore : Store := ⟨.Manual, [], [], [], .readWrite⟩

/-! ### Codec lemmas -/

/-- Decoding inverts encoding for the varint worker, for any sufficient
fuel, relative to an already-accumulated value and bit position. -/
theorem decodeVarintAux_encode (fuel : Nat) :
    ∀ (n : Nat), n < fuel → ∀ (rest : Bytes) (shift acc : Nat),
      decodeVarintAux (encodeVarintGo fuel n ++ rest) shift acc
        = some (acc + n * 2 ^ shift, rest) := by
  induction fuel with
  | zero => intro n h; exact absurd h (Nat.not_lt_zero n)
  | succ fuel ih =>
    intro n h rest shift acc
    by_cases h128 : n < 128
    · simp only [encodeVarintGo, if_pos h128, List.cons_append, List.nil_append,
        decodeVarintAux, if_pos h128]
    · have hb : ¬ (n % 128 + 128 < 128) := by omega
      have hdiv : n / 128 < fuel := by
        have h1 : n / 128 < n := Nat.div_lt_self (by omega) (by omega)
        omega
      simp only [encodeVarintGo, if_neg h128, List.cons_append, decodeVarintAux, if_neg hb]
      rw [ih (n / 128) hdiv rest (shift + 7) (acc + (n % 128 + 128 - 128) * 2 ^ shift)]
      have hmod : n % 128 + 128 - 128 = n % 128 := by omega
      have hkey : ∀ q r e : Nat, acc + r * e + q * (e * 2 ^ 7) = acc + (128 * q + r) * e := by
        intro q r e
        ring
      rw [hmod, pow_add, hkey, Nat.div_add_mod n 128]

/-- Varint round-trip: decoding the encoding of `n` yields `n` and leaves
exactly the appended remainder. -/
theorem decodeVarint_encode (n : Nat) (rest : Bytes) :
    decodeVarint (encodeVarint n ++ rest) = some (n, rest) := by
  unfold decodeVarint encodeVarint
  rw [decodeVarintAux_encode (n + 1) n (Nat.lt_succ_self n) rest 0 0]
  simp

/-- Byte-string round-trip: decoding the encoding of `s` yields `s` and
leaves exactly the appended remainder. -/
theorem decodeBytes_encode (s : Bytes) (rest : Bytes) :
    decodeBytes (encodeBytes s ++ rest) = some (s, rest) := by
  unfold decodeBytes encodeBytes
  rw [List.append_assoc, decodeVarint_encode]
  simp

/-- Operation-tag round-trip. -/
theorem decodeOp_encode (op : Operation) (rest : Bytes) :
    decodeOp (encodeOp op ++ rest) = some (op, rest) := by
  cases op <;>
    simp [encodeOp, decodeOp, decodeVarint, decodeVarintAux]

/-- A successful varint decode consumes at least one byte. -/
theorem decodeVarintAux_length :
    ∀ (buf : Bytes) (shift acc n : Nat) (rest : Bytes),
      decodeVarintAux buf shift acc = some (n, rest) → rest.length < buf.length := by
  intro buf
  induction buf with
  | nil => intro shift acc n rest h; simp [decodeVarintAux] at h
  | cons b bs ih =>
    intro shift acc n rest h
    by_cases hb : b < 128
    · simp only [decodeVarintAux, if_pos hb, Option.some.injEq, Prod.mk.injEq] at h
      simp [← h.2]
    · simp only [decodeVarintAux, if_neg hb] at h
      have := ih _ _ _ _ h
      simp only [List.length_cons]
      omega

/-- A successful operation-tag decode consumes at least one byte. -/
theorem decodeOp_length (buf : Bytes) (op : Operation) (rest : Bytes)
    (h : decodeOp buf = some (op, rest)) : rest.length < buf.length := by
  unfold decodeOp at h
  split at h
  · exact absurd h (by simp)
  · next hv => cases h; exact decodeVarintAux_length buf 0 0 _ _ hv
  · next hv => cases h; exact decodeVarintAux_length buf 0 0 _ _ hv
  · exact absurd h (by simp)

/-- A successful byte-string decode consumes at least one byte. -/
theorem decodeBytes_length (buf : Bytes) (s : Bytes) (rest : Bytes)
    (h : decodeBytes buf = some (s, rest)) : rest.length < buf.length := by
  unfold decodeBytes at h
  split at h
  · exact absurd h (by simp)
  · next len r hv =>
    split at h
    · cases h
      have hr := decodeVarintAux_length buf 0 0 len r hv
      simp only [List.length_drop]
      omega
    · exact absurd h (by simp)

/-- A successful record decode consumes at least one byte. -/
theorem decodeRecord_length (buf : Bytes) (r : Rec) (rest : Bytes)
    (h : decodeRecord buf = some (r, rest)) : rest.length < buf.length := by
  unfold decodeRecord at h
  split at h
  · exact absurd h (by simp)
  · next op buf1 hop =>
    split at h
    · exact absurd h (by simp)
    · next k buf2 hk =>
      have h1 := decodeOp_length buf op buf1 hop
      have h2 := decodeBytes_length buf1 k buf2 hk
      split at h
      · cases h
        omega
      · split at h
        · exact absurd h (by simp)
        · rename_i v buf3 hv
          cases h
          have h3 := decodeBytes_length _ _ _ hv
          omega

/-- Varint decoding is prefix-stable: appending extra bytes does not change
a successful decode, the extra bytes end up in the remainder. -/
theorem decodeVarintAux_append :
    ∀ (buf : Bytes) (shift acc n : Nat) (rest ext : Bytes),
      decodeVarintAux buf shift acc = some (n, rest) →
      decodeVarintAux (buf ++ ext) shift acc = some (n, rest ++ ext) := by
  intro buf
  induction buf with
  | nil => intro shift acc n rest ext h; simp [decodeVarintAux] at h
  | cons b bs ih =>
    intro shift acc n rest ext h
    by_cases hb : b < 128
    · simp only [decodeVarintAux, if_pos hb, Option.some.injEq, Prod.mk.injEq] at h
      simp [decodeVarintAux, if_pos hb, h.1, ← h.2]
    · simp only [decodeVarintAux, if_neg hb] at h
      simpa [decodeVarintAux, if_neg hb] using ih _ _ _ _ ext h

/-- Varint decoding is prefix-stable. -/
theorem decodeVarint_append (buf : Bytes) (n : Nat) (rest ext : Bytes)
    (h : decodeVarint buf = some (n, rest)) :
    decodeVarint (buf ++ ext) = some (n, rest ++ ext) :=
  decodeVarintAux_append buf 0 0 n rest ext h

/-- Byte-string decoding is prefix-stable. -/
theorem decodeBytes_append (buf : Bytes) (s : Bytes) (rest ext : Bytes)
    (h : decodeBytes buf = some (s, rest)) :
    decodeBytes (buf ++ ext) = some (s, rest ++ ext) := by
  unfold decodeBytes at h
  split at h
  · exact absurd h (by simp)
  · rename_i len r hv
    split at h
    · rename_i hlen
      cases h
      have h1 : len ≤ (r ++ ext).length := by
        simp only [List.length_append]
        omega
      simp only [decodeBytes, decodeVarint_append buf len r ext hv, if_pos h1,
        List.take_append_of_le_length hlen, List.drop_append_of_le_length hlen]
    · exact absurd h (by simp)

/-- Operation-tag decoding is prefix-stable. -/
theorem decodeOp_append (buf : Bytes) (op : Operation) (rest ext : Bytes)
    (h : decodeOp buf = some (op, rest)) :
    decodeOp (buf ++ ext) = some (op, rest ++ ext) := by
  unfold decodeOp at h
  split at h
  · exact absurd h (by simp)
  · rename_i r hv
    cases h
    simp only [decodeOp, decodeVarint_append _ _ _ ext hv]
  · rename_i r hv
    cases h
    simp only [decodeOp, decodeVarint_append _ _ _ ext hv]
  · exact absurd h (by simp)

/-- Record decoding is prefix-stable. -/
theorem decodeRecord_append (buf : Bytes) (r : Rec) (rest ext : Bytes)
    (h : decodeRecord buf = some (r, rest)) :
    decodeRecord (buf ++ ext) = some (r, rest ++ ext) := by
  unfold decodeRecord at h
  split at h
  · exact absurd h (by simp)
  · rename_i op buf1 hop
    split at h
    · exact absurd h (by simp)
    · rename_i k buf2 hk
      split at h
      · cases h
        simp only [decodeRecord, decodeOp_append _ _ _ ext hop,
          decodeBytes_append _ _ _ ext hk]
      · split at h
        · exact absurd h (by simp)
        · rename_i v buf3 hv
          cases h
          simp only [decodeRecord, decodeOp_append _ _ _ ext hop,
            decodeBytes_append _ _ _ ext hk,
            decodeBytes_append _ _ _ ext hv]

/-- Round-trip for one record: decode of encode succeeds without touching
the appended remainder. -/
theorem decodeRecord_encode (r : Rec) (rest : Bytes) :
    decodeRecord (encodeRec r ++ rest) = some (r, rest) := by
  cases r with
  | insert k v =>
    simp [decodeRecord, encodeRec, List.append_assoc, decodeOp_encode, decodeBytes_encode]
  | delete k =>
    simp [decodeRecord, encodeRec, List.append_assoc, decodeOp_encode, decodeBytes_encode]

/-- An encoded record is never empty (it starts with its tag byte). -/
theorem encodeRec_ne_nil (r : Rec) : encodeRec r ≠ [] := by
  cases r <;> simp [encodeRec, encodeOp]

/-! ### Replay lemmas -/

/-- One unfolding of the fueled replay loop on a non-empty buffer, phrased
through `decodeRecord`. -/
theorem replayFuel_cons (fuel : Nat) (b : Nat) (bs : Bytes) (m : Map) :
    replayFuel (fuel + 1) (b :: bs) m
      = match decodeRecord (b :: bs) with
        | none => none
        | some (r, rest) => replayFuel fuel rest (applyRec m r) := by
  cases hop : decodeOp (b :: bs) with
  | none => simp [replayFuel, decodeRecord, hop]
  | some x =>
    obtain ⟨op, buf1⟩ := x
    cases hk : decodeBytes buf1 with
    | none => cases op <;> simp [replayFuel, decodeRecord, hop, hk]
    | some y =>
      obtain ⟨k, buf2⟩ := y
      cases op with
      | Delete => simp [replayFuel, decodeRecord, applyRec, hop, hk]
      | Insert =>
        cases hv : decodeBytes buf2 with
        | none => simp [replayFuel, decodeRecord, hop, hk, hv]
        | some z =>
          obtain ⟨v, buf3⟩ := z
          simp [replayFuel, decodeRecord, applyRec, hop, hk, hv]

/-- Fuel irrelevance: any fuel at least the buffer length computes the
replay of the buffer. -/
theorem replayFuel_eq (f : Nat) :
    ∀ (buf : Bytes) (m : Map), buf.length ≤ f → replayFuel f buf m = replay buf m := by
  induction f using Nat.strong_induction_on with
  | _ f ih =>
    intro buf m hlen
    cases buf with
    | nil =>
      cases f <;> rfl
    | cons b bs =>
      simp only [List.length_cons] at hlen
      obtain ⟨f1, rfl⟩ : ∃ f1, f = f1 + 1 := ⟨f - 1, by omega⟩
      unfold replay
      simp only [List.length_cons]
      rw [replayFuel_cons, replayFuel_cons]
      cases hd : decodeRecord (b :: bs) with
      | none => rfl
      | some x =>
        obtain ⟨r, rest⟩ := x
        have hr := decodeRecord_length _ _ _ hd
        simp only [List.length_cons] at hr
        dsimp only
        rw [ih f1 (by omega) rest _ (by omega), ih bs.length (by omega) rest _ (by omega)]

/-- One unfolding of the replay loop of `from_file` on a non-empty buffer:
decode one record, apply it, continue on the remainder. -/
theorem replay_cons (buf : Bytes) (m : Map) (hne : buf ≠ []) :
    replay buf m
      = match decodeRecord buf with
        | none => none
        | some (r, rest) => replay rest (applyRec m r) := by
  cases buf with
  | nil => exact absurd rfl hne
  | cons b bs =>
    show replayFuel (b :: bs).length (b :: bs) m = _
    simp only [List.length_cons]
    rw [replayFuel_cons]
    cases hd : decodeRecord (b :: bs) with
    | none => rfl
    | some x =>
      obtain ⟨r, rest⟩ := x
      have hr := decodeRecord_length _ _ _ hd
      simp only [List.length_cons] at hr
      dsimp only
      rw [replayFuel_eq bs.length rest _ (by omega)]

/-- Replaying the encoding of one record continues on the remainder with the
record applied to the map. -/
theorem replay_encodeRec (r : Rec) (rest : Bytes) (m : Map) :
    replay (encodeRec r ++ rest) m = replay rest (applyRec m r) := by
  have hne : encodeRec r ++ rest ≠ [] := by
    intro h
    exact encodeRec_ne_nil r (List.append_eq_nil.mp h).1
  rw [replay_cons _ _ hne, decodeRecord_encode]

/-- Full replay of an encoded log folds the records, in log order, over the
starting map. -/
theorem replay_encodeLog (rs : List Rec) :
    ∀ (m : Map), replay (encodeLog rs) m = some (rs.foldl applyRec m) := by
  induction rs with
  | nil => intro m; rfl
  | cons r rs ih =>
    intro m
    have hlog : encodeLog (r :: rs) = encodeRec r ++ encodeLog rs := by
      simp [encodeLog]
    rw [hlog, replay_encodeRec, ih]
    rfl

/-- Auxiliary form of replay composition, with an explicit length bound for
the induction. -/
theorem replay_append_aux :
    ∀ (n : Nat) (good : Bytes), good.length ≤ n →
      ∀ (suffix : Bytes) (m m1 : Map), replay good m = some m1 →
        replay (good ++ suffix) m = replay suffix m1 := by
  intro n
  induction n with
  | zero =>
    intro good hlen suffix m m1 h
    have : good = [] := List.length_eq_zero.mp (by omega)
    subst this
    cases h
    rfl
  | succ n ih =>
    intro good hlen suffix m m1 h
    cases hgood : good with
    | nil =>
      subst hgood
      cases h
      rfl
    | cons b bs =>
      subst hgood
      by_cases hsuf : suffix = []
      · subst hsuf
        rw [List.append_nil, h]
        rfl
      · rw [replay_cons _ _ (by simp)] at h
        rw [replay_cons _ _ (by simp)]
        cases hd : decodeRecord (b :: bs) with
        | none => rw [hd] at h; exact absurd h (by simp)
        | some x =>
          obtain ⟨r, rest⟩ := x
          rw [hd] at h
          rw [decodeRecord_append _ _ _ suffix hd]
          have hr := decodeRecord_length _ _ _ hd
          simp only [List.length_cons] at hlen hr
          exact ih rest (by omega) suffix _ m1 h

/-- Replay composition: if a prefix replays successfully, replaying the
whole buffer continues from the prefix's result on the remaining bytes. -/
theorem replay_append (good suffix : Bytes) (m m1 : Map)
    (h : replay good m = some m1) :
    replay (good ++ suffix) m = replay suffix m1 :=
  replay_append_aux good.length good le_rfl suffix m m1 h

/-- The duplicated replay loop of `try_from_file` computes exactly the
replay loop of `from_file`, fuel for fuel. -/
theorem replayTryFuel_eq_replayFuel (f : Nat) :
    ∀ (buf : Bytes) (m : Map), replayTryFuel f buf m = replayFuel f buf m := by
  induction f with
  | zero =>
    intro buf m
    cases buf <;> rfl
  | succ f ih =>
    intro buf m
    cases buf with
    | nil => rfl
    | cons b bs =>
      cases hop : decodeOp (b :: bs) with
      | none => simp [replayFuel, replayTryFuel, hop]
      | some x =>
        obtain ⟨op, buf1⟩ := x
        cases hk : decodeBytes buf1 with
        | none => cases op <;> simp [replayFuel, replayTryFuel, hop, hk]
        | some y =>
          obtain ⟨k, buf2⟩ := y
          cases op with
          | Delete => simp [replayFuel, replayTryFuel, hop, hk, ih]
          | Insert =>
            cases hv : decodeBytes buf2 with
            | none => simp [replayFuel, replayTryFuel, hop, hk, hv]
            | some z =>
              obtain ⟨v, buf3⟩ := z
              simp [replayFuel, replayTryFuel, hop, hk, hv, ih]

/-- The two hydration loops agree on every buffer and starting map. -/
theorem replayTry_eq_replay (buf : Bytes) (m : Map) :
    replayTry buf m = replay buf m :=
  replayTryFuel_eq_replayFuel buf.length buf m

/-! ### Container lemmas and the last-write-wins reading of a log -/

/-- Lookup after insert: the inserted key now maps to the new value, other
keys are untouched. -/
theorem mapGet_mapInsert (k k' v : Bytes) :
    ∀ (m : Map), mapGet k (mapInsert k' v m) = if k' = k then some v else mapGet k m := by
  intro m
  induction m with
  | nil =>
    by_cases h : k' = k <;> simp [mapInsert, mapGet, h]
  | cons a m ih =>
    obtain ⟨ka, va⟩ := a
    by_cases hak : ka = k' <;> by_cases hkk : k' = k <;>
      simp_all [mapInsert, mapGet]

/-- Lookup after remove: the removed key is gone, other keys untouched. -/
theorem mapGet_mapRemove (k k' : Bytes) :
    ∀ (m : Map), mapGet k (mapRemove k' m) = if k' = k then none else mapGet k m := by
  intro m
  induction m with
  | nil => by_cases h : k' = k <;> simp [mapRemove, mapGet, h]
  | cons a m ih =>
    obtain ⟨ka, va⟩ := a
    by_cases hak : ka = k' <;> by_cases hkk : k' = k <;>
      simp_all [mapRemove, mapGet, List.filter]

/-- Folding a log over a map realizes `lastAction`: the key's final binding
is decided by the last record mentioning it, or left alone. -/
theorem mapGet_foldl (k : Bytes) :
    ∀ (rs : List Rec) (m : Map),
      mapGet k (rs.foldl applyRec m)
        = match lastAction k rs with
          | some a => a
          | none => mapGet k m := by
  intro rs
  induction rs with
  | nil => intro m; rfl
  | cons r rest ih =>
    intro m
    rw [List.foldl_cons, ih (applyRec m r)]
    cases hrest : lastAction k rest with
    | some a => simp [lastAction, hrest]
    | none =>
      cases r with
      | insert k' v =>
        by_cases hk : k' = k <;>
          simp [lastAction, hrest, applyRec, mapGet_mapInsert, hk]
      | delete k' =>
        by_cases hk : k' = k <;>
          simp [lastAction, hrest, applyRec, mapGet_mapRemove, hk]

/-! ### Write-path lemmas -/

/-- On a writable handle an OS write always succeeds and appends. -/
theorem osWrite_readWrite (file data : Bytes) :
    osWrite .readWrite file data = .ok (file ++ data) := by
  by_cases h : data = [] <;> simp [osWrite, h]

/-- On a writable handle `write_all` always succeeds, and the bytes held by
the file and the buffer together grow by exactly the written data. -/
theorem bufWriteAll_readWrite (file buf data : Bytes) :
    ∃ f1 b1, bufWriteAll .readWrite file buf data = .ok (f1, b1) ∧
      f1 ++ b1 = file ++ buf ++ data := by
  by_cases hspill : buf.length + data.length > cap
  · by_cases hbig : data.length ≥ cap
    · refine ⟨file ++ buf ++ data, [], ?_, by simp⟩
      simp only [bufWriteAll, if_pos hspill, osWrite_readWrite, if_pos hbig]
    · refine ⟨file ++ buf, data, ?_, rfl⟩
      simp only [bufWriteAll, if_pos hspill, osWrite_readWrite, if_neg hbig]
  · refine ⟨file, buf ++ data, ?_, by simp⟩
    simp only [bufWriteAll, if_neg hspill]

/-- On a read-only handle a `write_all` of non-empty data either fails with
a file error, or merely buffers: the file is unchanged and the buffer
non-empty. -/
theorem bufWriteAll_readOnly (file buf data : Bytes) (hdata : data ≠ []) :
    bufWriteAll .readOnly file buf data = .error .FileError ∨
      ∃ b1, bufWriteAll .readOnly file buf data = .ok (file, b1) ∧ b1 ≠ [] := by
  by_cases hspill : buf.length + data.length > cap
  · by_cases hbuf : buf = []
    · subst hbuf
      have h0 : osWrite FileMode.readOnly file [] = .ok file := by simp [osWrite]
      by_cases hbig : data.length ≥ cap
      · left
        have h1 : osWrite FileMode.readOnly file data = .error .FileError := by
          simp [osWrite, hdata]
        simp only [bufWriteAll, if_pos hspill, h0, if_pos hbig, h1]
      · right
        exact ⟨data, by simp only [bufWriteAll, if_pos hspill, h0, if_neg hbig], hdata⟩
    · left
      have h1 : osWrite FileMode.readOnly file buf = .error .FileError := by
        simp [osWrite, hbuf]
      simp only [bufWriteAll, if_pos hspill, h1]
  · right
    exact ⟨buf ++ data, by simp only [bufWriteAll, if_neg hspill], by simp [hdata]⟩

/-- `insert` on a writable handle: the call succeeds, returns the previous
binding, updates the map, and the file-plus-buffer bytes grow by exactly the
encoded record; mode and strategy are unchanged. -/
theorem insert_readWrite (p : Store) (hm : p.mode = .readWrite) (k v : Bytes) :
    (Store.insert p k v).2 = .ok (mapGet k p.inner) ∧
    (Store.insert p k v).1.inner = mapInsert k v p.inner ∧
    (Store.insert p k v).1.file ++ (Store.insert p k v).1.writerBuf
      = p.file ++ p.writerBuf ++ encodeRec (.insert k v) ∧
    (Store.insert p k v).1.mode = .readWrite ∧
    (Store.insert p k v).1.strategy = p.strategy := by
  obtain ⟨f1, b1, hbw, hcat⟩ := bufWriteAll_readWrite p.file p.writerBuf (encodeRec (.insert k v))
  cases hs : p.strategy with
  | Stream =>
    simp [Store.insert, hm, hbw, hs, osWrite_readWrite, hcat]
  | Manual =>
    simp [Store.insert, hm, hbw, hs, hcat]

/-- `remove` on a writable handle, the analogue of `insert_readWrite`. -/
theorem remove_readWrite (p : Store) (hm : p.mode = .readWrite) (k : Bytes) :
    (Store.remove p k).2 = .ok (mapGet k p.inner) ∧
    (Store.remove p k).1.inner = mapRemove k p.inner ∧
    (Store.remove p k).1.file ++ (Store.remove p k).1.writerBuf
      = p.file ++ p.writerBuf ++ encodeRec (.delete k) ∧
    (Store.remove p k).1.mode = .readWrite ∧
    (Store.remove p k).1.strategy = p.strategy := by
  obtain ⟨f1, b1, hbw, hcat⟩ := bufWriteAll_readWrite p.file p.writerBuf (encodeRec (.delete k))
  cases hs : p.strategy with
  | Stream =>
    simp [Store.remove, hm, hbw, hs, osWrite_readWrite, hcat]
  | Manual =>
    simp [Store.remove, hm, hbw, hs, hcat]

/-- `insert` under the `Stream` strategy on a writable handle flushes: the
whole pending buffer and the new record reach the file and the buffer is
left empty. -/
theorem insert_stream_readWrite (p : Store) (hs : p.strategy = .Stream)
    (hm : p.mode = .readWrite) (k v : Bytes) :
    Store.insert p k v
      = ({ p with
            inner := mapInsert k v p.inner
            file := p.file ++ p.writerBuf ++ encodeRec (.insert k v)
            writerBuf := [] }, .ok (mapGet k p.inner)) := by
  obtain ⟨f1, b1, hbw, hcat⟩ := bufWriteAll_readWrite p.file p.writerBuf (encodeRec (.insert k v))
  simp only [Store.insert, hm, hbw, hs, osWrite_readWrite, hcat]

/-- `remove` under the `Stream` strategy on a writable handle flushes. -/
theorem remove_stream_readWrite (p : Store) (hs : p.strategy = .Stream)
    (hm : p.mode = .readWrite) (k : Bytes) :
    Store.remove p k
      = ({ p with
            inner := mapRemove k p.inner
            file := p.file ++ p.writerBuf ++ encodeRec (.delete k)
            writerBuf := [] }, .ok (mapGet k p.inner)) := by
  obtain ⟨f1, b1, hbw, hcat⟩ := bufWriteAll_readWrite p.file p.writerBuf (encodeRec (.delete k))
  simp only [Store.remove, hm, hbw, hs, osWrite_readWrite, hcat]

/-- `insert` under the `Stream` strategy on a read-only handle fails with a
file error and leaves file and map unchanged. -/
theorem insert_readOnly_stream (p : Store) (hm : p.mode = .readOnly)
    (hs : p.strategy = .Stream) (k v : Bytes) :
    (Store.insert p k v).2 = .error .FileError ∧
    (Store.insert p k v).1.file = p.file ∧
    (Store.insert p k v).1.inner = p.inner := by
  rcases bufWriteAll_readOnly p.file p.writerBuf (encodeRec (.insert k v))
      (encodeRec_ne_nil _) with h | ⟨b1, h, hb1⟩
  · simp [Store.insert, hm, hs, h]
  · have hos : osWrite FileMode.readOnly p.file b1 = .error .FileError := by
      simp [osWrite, hb1]
    simp [Store.insert, hm, hs, h, hos]

/-- `remove` under the `Stream` strategy on a read-only handle fails with a
file error and leaves file and map unchanged. -/
theorem remove_readOnly_stream (p : Store) (hm : p.mode = .readOnly)
    (hs : p.strategy = .Stream) (k : Bytes) :
    (Store.remove p k).2 = .error .FileError ∧
    (Store.remove p k).1.file = p.file ∧
    (Store.remove p k).1.inner = p.inner := by
  rcases bufWriteAll_readOnly p.file p.writerBuf (encodeRec (.delete k))
      (encodeRec_ne_nil _) with h | ⟨b1, h, hb1⟩
  · simp [Store.remove, hm, hs, h]
  · have hos : osWrite FileMode.readOnly p.file b1 = .error .FileError := by
      simp [osWrite, hb1]
    simp [Store.remove, hm, hs, h, hos]

/-- `flush` on a writable handle forces the whole buffer to the file. -/
theorem flush_readWrite (p : Store) (hm : p.mode = .readWrite) :
    Store.flush p = ({ p with file := p.file ++ p.writerBuf, writerBuf := [] }, .ok ()) := by
  simp only [Store.flush, hm, osWrite_readWrite]

/-- Running a call sequence on a writable store: every call succeeds, the
map is the fold of the corresponding records, the file-plus-buffer bytes
grow by exactly the encoded log, and mode and strategy are preserved. -/
theorem runOps_readWrite (ops : List Call) :
    ∀ (p : Store), p.mode = .readWrite →
      (runOps p ops).2 = .ok () ∧
      (runOps p ops).1.inner = ops.foldl applyRec p.inner ∧
      (runOps p ops).1.file ++ (runOps p ops).1.writerBuf
        = p.file ++ p.writerBuf ++ encodeLog ops ∧
      (runOps p ops).1.mode = .readWrite ∧
      (runOps p ops).1.strategy = p.strategy := by
  induction ops with
  | nil =>
    intro p hm
    exact ⟨rfl, rfl, by simp [runOps, encodeLog], hm, rfl⟩
  | cons op rest ih =>
    intro p hm
    have hlog : encodeLog (op :: rest) = encodeRec op ++ encodeLog rest := by
      simp [encodeLog]
    cases op with
    | insert k v =>
      obtain ⟨h2, hinner, hcat, hmode, hstrat⟩ := insert_readWrite p hm k v
      rcases hq : Store.insert p k v with ⟨p1, res⟩
      rw [hq] at h2 hinner hcat hmode hstrat
      dsimp only at h2 hinner hcat hmode hstrat
      subst h2
      obtain ⟨ih2, ihinner, ihcat, ihmode, ihstrat⟩ := ih p1 hmode
      refine ⟨?_, ?_, ?_, ?_, ?_⟩ <;>
        simp only [runOps, hq, ih2, ihinner, ihcat, ihmode, ihstrat, hinner, hstrat,
          List.foldl_cons, applyRec, hlog]
      rw [hcat]
      simp [List.append_assoc]
    | delete k =>
      obtain ⟨h2, hinner, hcat, hmode, hstrat⟩ := remove_readWrite p hm k
      rcases hq : Store.remove p k with ⟨p1, res⟩
      rw [hq] at h2 hinner hcat hmode hstrat
      dsimp only at h2 hinner hcat hmode hstrat
      subst h2
      obtain ⟨ih2, ihinner, ihcat, ihmode, ihstrat⟩ := ih p1 hmode
      refine ⟨?_, ?_, ?_, ?_, ?_⟩ <;>
        simp only [runOps, hq, ih2, ihinner, ihcat, ihmode, ihstrat, hinner, hstrat,
          List.foldl_cons, applyRec, hlog]
      rw [hcat]
      simp [List.append_assoc]

/-- Complete case split for `insert`, over every strategy and handle mode:
either the call succeeds, returns the old binding and updates the map, or it
fails with some error and leaves the map untouched. -/
theorem insert_cases (p : Store) (k v : Bytes) :
    ((Store.insert p k v).2 = .ok (mapGet k p.inner) ∧
      (Store.insert p k v).1.inner = mapInsert k v p.inner) ∨
    ((∃ e, (Store.insert p k v).2 = .error e) ∧
      (Store.insert p k v).1.inner = p.inner) := by
  cases hbw : bufWriteAll p.mode p.file p.writerBuf (encodeRec (.insert k v)) with
  | error e =>
    right
    exact ⟨⟨e, by simp [Store.insert, hbw]⟩, by simp [Store.insert, hbw]⟩
  | ok x =>
    obtain ⟨f1, b1⟩ := x
    cases hs : p.strategy with
    | Stream =>
      cases hos : osWrite p.mode f1 b1 with
      | error e =>
        right
        exact ⟨⟨e, by simp [Store.insert, hbw, hs, hos]⟩, by simp [Store.insert, hbw, hs, hos]⟩
      | ok f2 =>
        left
        exact ⟨by simp [Store.insert, hbw, hs, hos], by simp [Store.insert, hbw, hs, hos]⟩
    | Manual =>
      left
      exact ⟨by simp [Store.insert, hbw, hs], by simp [Store.insert, hbw, hs]⟩

/-- Complete case split for `remove`, the analogue of `insert_cases`. -/
theorem remove_cases (p : Store) (k : Bytes) :
    ((Store.remove p k).2 = .ok (mapGet k p.inner) ∧
      (Store.remove p k).1.inner = mapRemove k p.inner) ∨
    ((∃ e, (Store.remove p k).2 = .error e) ∧
      (Store.remove p k).1.inner = p.inner) := by
  cases hbw : bufWriteAll p.mode p.file p.writerBuf (encodeRec (.delete k)) with
  | error e =>
    right
    exact ⟨⟨e, by simp [Store.remove, hbw]⟩, by simp [Store.remove, hbw]⟩
  | ok x =>
    obtain ⟨f1, b1⟩ := x
    cases hs : p.strategy with
    | Stream =>
      cases hos : osWrite p.mode f1 b1 with
      | error e =>
        right
        exact ⟨⟨e, by simp [Store.remove, hbw, hs, hos]⟩, by simp [Store.remove, hbw, hs, hos]⟩
      | ok f2 =>
        left
        exact ⟨by simp [Store.remove, hbw, hs, hos], by simp [Store.remove, hbw, hs, hos]⟩
    | Manual =>
      left
      exact ⟨by simp [Store.remove, hbw, hs], by simp [Store.remove, hbw, hs]⟩

/-- Any store returned by `from_file` holds a read-only handle. -/
theorem fromFile_mode (strat : Strategy) (buf : Bytes) (p : Store)
    (h : fromFile strat buf = .ok p) : p.mode = .readOnly := by
  unfold fromFile at h
  split at h
  · exact absurd h (by simp)
  · cases h
    rfl

/-- Any store returned by `try_from_file` holds a writable handle. -/
theorem tryFromFile_mode (strat : Strategy) (buf : Bytes) (p : Store)
    (h : tryFromFile strat buf = .ok p) : p.mode = .readWrite := by
  unfold tryFromFile at h
  split at h
  · exact absurd h (by simp)
  · cases h
    rfl

/-! ### Claims -/

/-- C1 (round-trip): for every finite sequence of insert and remove calls
applied to a Store created with an empty seed, every call succeeds, and
hydrating a new Store from the resulting log file (after the close-time
flush) yields an in-memory container equal to the one produced by applying
the same sequence of operations directly to an empty in-memory map. -/
theorem store_log_roundtrip (strategy : Strategy) (ops : List Call) :
    ∃ p1 p2 p3 : Store,
      newStore [] strategy = .ok ⟨strategy, [], [], [], .readWrite⟩ ∧
      runOps ⟨strategy, [], [], [], .readWrite⟩ ops = (p1, .ok ()) ∧
      Store.flush p1 = (p2, .ok ()) ∧
      fromFile strategy p2.file = .ok p3 ∧
      p3.inner = ops.foldl applyRec [] := by
  obtain ⟨h2, hinner, hcat, hmode, hstrat⟩ :=
    runOps_readWrite ops ⟨strategy, [], [], [], .readWrite⟩ rfl
  have hfile : (Store.flush (runOps (⟨strategy, [], [], [], .readWrite⟩ : Store) ops).1).1.file
      = encodeLog ops := by
    rw [flush_readWrite _ hmode]
    simpa using hcat
  refine ⟨(runOps (⟨strategy, [], [], [], .readWrite⟩ : Store) ops).1,
    (Store.flush (runOps (⟨strategy, [], [], [], .readWrite⟩ : Store) ops).1).1,
    ⟨strategy, ops.foldl applyRec [], [], encodeLog ops, .readOnly⟩,
    rfl, ?_, ?_, ?_, rfl⟩
  · rw [← h2]
  · rw [flush_readWrite _ hmode]
  · rw [hfile]
    simp [fromFile, replay_encodeLog]

/-- C2 (atomicity of one mutation): for every insert or remove call, when
the call returns an error the in-memory container is exactly as before the
call, and when it returns a value the container was updated and the value
is the key's previous binding. -/
theorem mutation_atomicity (p : Store) (k v : Bytes) :
    (∀ e : Error, (Store.insert p k v).2 = .error e →
      (Store.insert p k v).1.inner = p.inner) ∧
    (∀ old : Option Bytes, (Store.insert p k v).2 = .ok old →
      (Store.insert p k v).1.inner = mapInsert k v p.inner ∧ old = mapGet k p.inner) ∧
    (∀ e : Error, (Store.remove p k).2 = .error e →
      (Store.remove p k).1.inner = p.inner) ∧
    (∀ old : Option Bytes, (Store.remove p k).2 = .ok old →
      (Store.remove p k).1.inner = mapRemove k p.inner ∧ old = mapGet k p.inner) := by
  refine ⟨?_, ?_, ?_, ?_⟩
  · intro e he
    rcases insert_cases p k v with ⟨hok, _⟩ | ⟨_, hsame⟩
    · rw [he] at hok
      exact absurd hok (by simp)
    · exact hsame
  · intro old hold
    rcases insert_cases p k v with ⟨hok, hupd⟩ | ⟨⟨e, herr⟩, _⟩
    · rw [hold] at hok
      injection hok with h
      exact ⟨hupd, h⟩
    · rw [hold] at herr
      exact absurd herr (by simp)
  · intro e he
    rcases remove_cases p k with ⟨hok, _⟩ | ⟨_, hsame⟩
    · rw [he] at hok
      exact absurd hok (by simp)
    · exact hsame
  · intro old hold
    rcases remove_cases p k with ⟨hok, hupd⟩ | ⟨⟨e, herr⟩, _⟩
    · rw [hold] at hok
      injection hok with h
      exact ⟨hupd, h⟩
    · rw [hold] at herr
      exact absurd herr (by simp)

/-- Witness for C2: on a read-only `Stream` store the insert fails and the
container is untouched; on a writable store the insert succeeds and updates
the container. -/
theorem mutation_atomicity_witness :
    (Store.insert stoRO [97] [98]).1.inner = stoRO.inner ∧
    (Store.insert scA0 [97] [98]).1.inner = mapInsert [97] [98] scA0.inner :=
  ⟨(mutation_atomicity stoRO [97] [98]).1 .FileError rfl,
   ((mutation_atomicity scA0 [97] [98]).2.1 none rfl).1⟩

/-- C3 (last-write-wins replay): for every well-formed log — the encoding
of a record list — and every key, full replay succeeds and binds the key to
the value of the last Insert record for it with no later Delete record for
it; in particular two inserts of the same key leave the latest value. -/
theorem last_write_wins (rs : List Rec) (k : Bytes) :
    (∃ m, replay (encodeLog rs) [] = some m ∧ mapGet k m = lastInsertValue k rs) ∧
    (∀ v1 v2 : Bytes, ∃ m,
      replay (encodeLog [.insert k v1, .insert k v2]) [] = some m ∧
      mapGet k m = some v2) := by
  constructor
  · refine ⟨rs.foldl applyRec [], replay_encodeLog rs [], ?_⟩
    rw [mapGet_foldl]
    cases h : lastAction k rs <;> simp [lastInsertValue, h, mapGet]
  · intro v1 v2
    refine ⟨_, replay_encodeLog [.insert k v1, .insert k v2] [], ?_⟩
    simp [applyRec, mapGet_mapInsert]

/-- C4, counterexample: hydrating an (empty) log with `from_file` under
`Stream` yields a store whose very next insert returns a file error — the
handle is read-only — and appends nothing to the log. -/
theorem fromFile_then_insert_fails :
    fromFile Strategy.Stream [] = .ok stoRO ∧
    (Store.insert stoRO [97] [98]).2 = .error .FileError ∧
    (Store.insert stoRO [97] [98]).1.file = [] :=
  ⟨rfl, rfl, rfl⟩

/-- C4 as amended: a store returned by `from_file` holds a read-only
handle, so under `Stream` a subsequent insert or remove fails with a file
error and the log file is unchanged; hydration for further mutation must
use `try_from_file`, whose writable handle lets a subsequent `Stream`
insert succeed and append its record at the end of the existing log. -/
theorem fromFile_readOnly_append_error :
    (∀ (strat : Strategy) (buf : Bytes) (p : Store),
      fromFile strat buf = .ok p → p.mode = .readOnly) ∧
    (∀ p : Store, p.mode = .readOnly → p.strategy = .Stream → ∀ k v : Bytes,
      (Store.insert p k v).2 = .error .FileError ∧
      (Store.insert p k v).1.file = p.file ∧
      (Store.insert p k v).1.inner = p.inner ∧
      (Store.remove p k).2 = .error .FileError ∧
      (Store.remove p k).1.file = p.file) ∧
    (∀ (strat : Strategy) (buf : Bytes) (p : Store),
      tryFromFile strat buf = .ok p → p.mode = .readWrite) ∧
    (∀ p : Store, p.mode = .readWrite → p.strategy = .Stream → ∀ k v : Bytes,
      (Store.insert p k v).2 = .ok (mapGet k p.inner) ∧
      (Store.insert p k v).1.file = p.file ++ p.writerBuf ++ encodeRec (.insert k v)) := by
  refine ⟨fromFile_mode, ?_, tryFromFile_mode, ?_⟩
  · intro p hm hs k v
    obtain ⟨hi1, hi2, hi3⟩ := insert_readOnly_stream p hm hs k v
    obtain ⟨hr1, hr2, _⟩ := remove_readOnly_stream p hm hs k
    exact ⟨hi1, hi2, hi3, hr1, hr2⟩
  · intro p hm hs k v
    rw [insert_stream_readWrite p hs hm k v]
    exact ⟨rfl, rfl⟩

/-- Witness for the amended C4, at the empty log: the read-only store from
`from_file` rejects mutations, the writable store from `try_from_file`
accepts and appends them. -/
theorem fromFile_readOnly_append_error_witness :
    stoRO.mode = .readOnly ∧
    ((Store.insert stoRO [97] [98]).2 = .error .FileError ∧
      (Store.insert stoRO [97] [98]).1.file = stoRO.file ∧
      (Store.insert stoRO [97] [98]).1.inner = stoRO.inner ∧
      (Store.remove stoRO [97]).2 = .error .FileError ∧
      (Store.remove stoRO [97]).1.file = stoRO.file) ∧
    scA0.mode = .readWrite ∧
    ((Store.insert scA0 [97] [98]).2 = .ok (mapGet [97] scA0.inner) ∧
      (Store.insert scA0 [97] [98]).1.file
        = scA0.file ++ scA0.writerBuf ++ encodeRec (.insert [97] [98])) :=
  ⟨fromFile_readOnly_append_error.1 Strategy.Stream [] stoRO rfl,
   fromFile_readOnly_append_error.2.1 stoRO rfl rfl [97] [98],
   fromFile_readOnly_append_error.2.2.1 Strategy.Stream [] scA0 rfl,
   fromFile_readOnly_append_error.2.2.2 scA0 rfl rfl [97] [98]⟩

/-- C5 (Scenario A): from a store with an empty seed under `Stream`, the
four calls return `none`, `some "fed"`, `some "def"`, `none`; afterwards
`get "abc"` is `none` and `get "hello"` is `some "world"`; and the log file
holds exactly the 36 bytes of the worked example. -/
theorem scenarioA_matches_spec :
    newStore [] Strategy.Stream = .ok scA0 ∧
    (Store.insert scA0 [97, 98, 99] [102, 101, 100]).2 = .ok none ∧
    (Store.insert scA1 [97, 98, 99] [100, 101, 102]).2 = .ok (some [102, 101, 100]) ∧
    (Store.remove scA2 [97, 98, 99]).2 = .ok (some [100, 101, 102]) ∧
    (Store.insert scA3 [104, 101, 108, 108, 111] [119, 111, 114, 108, 100]).2 = .ok none ∧
    Store.get scA4 [97, 98, 99] = none ∧
    Store.get scA4 [104, 101, 108, 108, 111] = some [119, 111, 114, 108, 100] ∧
    scA4.file = [0, 3, 97, 98, 99, 3, 102, 101, 100,
                 0, 3, 97, 98, 99, 3, 100, 101, 102,
                 1, 3, 97, 98, 99,
                 0, 5, 104, 101, 108, 108, 111, 5, 119, 111, 114, 108, 100] :=
  ⟨rfl, rfl, rfl, rfl, rfl, rfl, rfl, rfl⟩

/-- C6 (seeded construction): `new` truncates the file and writes exactly
one Insert record per seed entry (in iteration order) before flushing, and
the returned store's container is the seed; a one-entry seed yields a file
of exactly one Insert record, and hydrating that file recovers the entry. -/
theorem new_seeded_store (seed : Map) (strat : Strategy) :
    newStore seed strat
      = .ok ⟨strat, seed, [], encodeLog (seedRecords seed), .readWrite⟩ ∧
    ∀ k v : Bytes,
      newStore [(k, v)] strat
        = .ok ⟨strat, [(k, v)], [], encodeRec (.insert k v), .readWrite⟩ ∧
      fromFile strat (encodeRec (.insert k v))
        = .ok ⟨strat, [(k, v)], [], encodeRec (.insert k v), .readOnly⟩ := by
  constructor
  · by_cases hseed : seed = []
    · subst hseed
      simp [newStore, encodeLog, seedRecords]
    · obtain ⟨f1, b1, hbw, hcat⟩ := bufWriteAll_readWrite [] []
        ((seed.map (fun kv => encodeRec (.insert kv.1 kv.2))).flatten)
      simp only [newStore, if_neg hseed, hbw, osWrite_readWrite]
      have hfb : f1 ++ b1 = encodeLog (seedRecords seed) := by
        rw [hcat]
        simp only [List.nil_append, encodeLog, seedRecords, List.map_map]
        rfl
      rw [hfb]
  · intro k v
    constructor
    · have hne : ([(k, v)] : Map) ≠ [] := by simp
      obtain ⟨f1, b1, hbw, hcat⟩ := bufWriteAll_readWrite [] []
        (([(k, v)].map (fun kv => encodeRec (.insert kv.1 kv.2))).flatten)
      simp only [newStore, if_neg hne, hbw, osWrite_readWrite]
      have hfb : f1 ++ b1 = encodeRec (.insert k v) := by
        rw [hcat]
        simp
      rw [hfb]
    · have h1 : replay (encodeRec (.insert k v)) [] = some [(k, v)] := by
        have h2 := replay_encodeRec (.insert k v) [] []
        rw [List.append_nil] at h2
        simpa [applyRec, mapInsert] using h2
      simp [fromFile, h1]

/-- C7 (flush strategy): under `Stream` every successful insert or remove
leaves the file extended by exactly the pending buffer plus that call's
record, with an empty buffer — the record is on disk before the call
returns; `flush` forces all buffered bytes out; and under `Manual` a
mutating call can leave its record buffered, the file untouched until an
explicit flush. -/
theorem stream_flush_on_mutation (p : Store) :
    (p.strategy = .Stream → ∀ (k v : Bytes) (old : Option Bytes),
      (Store.insert p k v).2 = .ok old →
      (Store.insert p k v).1.file = p.file ++ p.writerBuf ++ encodeRec (.insert k v) ∧
      (Store.insert p k v).1.writerBuf = []) ∧
    (p.strategy = .Stream → ∀ (k : Bytes) (old : Option Bytes),
      (Store.remove p k).2 = .ok old →
      (Store.remove p k).1.file = p.file ++ p.writerBuf ++ encodeRec (.delete k) ∧
      (Store.remove p k).1.writerBuf = []) ∧
    (p.mode = .readWrite →
      Store.flush p
        = ({ p with file := p.file ++ p.writerBuf, writerBuf := [] }, .ok ())) ∧
    ((Store.insert manualStore [97] [98]).2 = .ok none ∧
      (Store.insert manualStore [97] [98]).1.writerBuf = encodeRec (.insert [97] [98]) ∧
      (Store.insert manualStore [97] [98]).1.file = manualStore.file ∧
      Store.flush (Store.insert manualStore [97] [98]).1
        = (⟨.Manual, [([97], [98])], [], encodeRec (.insert [97] [98]), .readWrite⟩,
           .ok ())) := by
  refine ⟨?_, ?_, fun hm => flush_readWrite p hm, rfl, rfl, rfl, rfl⟩
  · intro hs k v old hok
    cases hmode : p.mode with
    | readOnly =>
      have herr := (insert_readOnly_stream p hmode hs k v).1
      rw [hok] at herr
      exact absurd herr (by simp)
    | readWrite =>
      rw [insert_stream_readWrite p hs hmode k v]
      exact ⟨rfl, rfl⟩
  · intro hs k old hok
    cases hmode : p.mode with
    | readOnly =>
      have herr := (remove_readOnly_stream p hmode hs k).1
      rw [hok] at herr
      exact absurd herr (by simp)
    | readWrite =>
      rw [remove_stream_readWrite p hs hmode k]
      exact ⟨rfl, rfl⟩

/-- Witness for C7: concrete `Stream` mutations flush to the file, and a
writable store's flush empties the buffer into the file. -/
theorem stream_flush_on_mutation_witness :
    ((Store.insert scA0 [97] [98]).1.file
        = scA0.file ++ scA0.writerBuf ++ encodeRec (.insert [97] [98]) ∧
      (Store.insert scA0 [97] [98]).1.writerBuf = []) ∧
    ((Store.remove scA0 [97]).1.file
        = scA0.file ++ scA0.writerBuf ++ encodeRec (.delete [97]) ∧
      (Store.remove scA0 [97]).1.writerBuf = []) ∧
    Store.flush manualStore
      = ({ manualStore with
            file := manualStore.file ++ manualStore.writerBuf
            writerBuf := [] }, .ok ()) :=
  ⟨(stream_flush_on_mutation scA0).1 rfl [97] [98] none rfl,
   (stream_flush_on_mutation scA0).2.1 rfl [97] none rfl,
   (stream_flush_on_mutation manualStore).2.2.1 rfl⟩

/-- C8 (truncation is fatal): a log consisting of replayable bytes followed
by a non-empty suffix from which no complete valid record can be decoded —
for example a record cut off mid-write — makes `from_file` fail with the
(de)serialization error; there is no partial-record tolerance. -/
theorem truncated_log_fatal (strat : Strategy) (good suffix : Bytes) (m1 : Map)
    (hgood : replay good [] = some m1) (hne : suffix ≠ [])
    (hbad : decodeRecord suffix = none) :
    fromFile strat (good ++ suffix) = .error .SerError := by
  have h1 : replay (good ++ suffix) [] = replay suffix m1 :=
    replay_append good suffix [] m1 hgood
  have h2 : replay suffix m1 = none := by
    rw [replay_cons suffix m1 hne, hbad]
  simp [fromFile, h1, h2]

/-- Witness for C8: one full Insert record followed by an Insert record cut
off inside its key makes hydration fail. -/
theorem truncated_log_fatal_witness :
    replay [0, 3, 97, 98, 99, 3, 102, 101, 100] []
      = some [([97, 98, 99], [102, 101, 100])] ∧
    ([0, 3, 97] : Bytes) ≠ [] ∧
    decodeRecord [0, 3, 97] = none ∧
    fromFile Strategy.Stream ([0, 3, 97, 98, 99, 3, 102, 101, 100] ++ [0, 3, 97])
      = .error .SerError :=
  ⟨rfl, by decide, rfl,
   truncated_log_fatal Strategy.Stream [0, 3, 97, 98, 99, 3, 102, 101, 100]
     [0, 3, 97] [([97, 98, 99], [102, 101, 100])] rfl (by decide) rfl⟩

/-- C9 (empty-file hydration): `from_file` on an existing zero-byte file
succeeds, with an empty in-memory container. -/
theorem hydrate_empty_file (strat : Strategy) :
    fromFile strat [] = .ok ⟨strat, [], [], [], .readOnly⟩ :=
  rfl

/-- C10 (the two hydration entry points agree): the two replay loops are
the same function, so on every byte content `from_file` and `try_from_file`
either both fail with the decode error or both succeed with identical
containers — the stores differ only in the handle's open mode. -/
theorem hydration_paths_agree :
    (∀ (buf : Bytes) (m : Map), replayTry buf m = replay buf m) ∧
    (∀ (strat : Strategy) (buf : Bytes),
      (fromFile strat buf = .error .SerError ∧ tryFromFile strat buf = .error .SerError) ∨
      (∃ m : Map, fromFile strat buf = .ok ⟨strat, m, [], buf, .readOnly⟩ ∧
        tryFromFile strat buf = .ok ⟨strat, m, [], buf, .readWrite⟩)) := by
  refine ⟨replayTry_eq_replay, ?_⟩
  intro strat buf
  cases hr : replay buf [] with
  | none =>
    left
    constructor
    · simp [fromFile, hr]
    · simp [tryFromFile, replayTry_eq_replay, hr]
  | some m =>
    right
    exact ⟨m, by simp [fromFile, hr], by simp [tryFromFile, replayTry_eq_replay, hr]⟩

end Perds
